import Mathlib

/-!
# Verification of the Cooja topology generator

Shallow embedding of `src/scripts/generate-topology.py`, the topology
placement / parameter sweep script, together with proofs of the
specified properties.

Conventions of the embedding:
* Python floats become exact rationals (`ℚ`); the script's geometric
  comparisons are reproduced exactly over `ℚ` (a comparison against a
  real square root is encoded by the equivalent rational comparison,
  proved equivalent in `distLt_iff_sqrt`).
* The process-global random generator is made explicit: `Ctx.u` is the
  stream of `random.uniform` draw pairs (one pair per rejection-sampling
  attempt, each component a unit draw in `[0,1]` scaled affinely to the
  requested interval, as `random.uniform(a, b)` computes
  `a + (b - a) * random()`), and `Ctx.rints` is the stream of
  `random.randint(0, 0x7fffffff)` draws used by the `r` seed policy.
* The unbounded `while not done` rejection-sampling loop is given
  explicit fuel; `none` models the loop not having accepted a candidate
  yet (the script would still be spinning), `some` models acceptance.
* Fatal `sys.exit` calls become `Except.error` with the exact message.
-/

namespace GenTopology

/-- A Cooja mote: stable integer identifier plus mutable 2D position
(`m.position.x`, `m.position.y` in the script). -/
structure Mote where
  id : ℤ
  x : ℚ
  y : ℚ
deriving DecidableEq

/-- The square of `get_distance(mote, x, y)`:
`dx = abs(x - mote.position.x)`, `dy = abs(y - mote.position.y)`,
`get_distance = math.sqrt(dx ** 2 + dy ** 2)`. -/
def get_distance_sq (m : Mote) (x y : ℚ) : ℚ :=
  |x - m.x| ^ 2 + |y - m.y| ^ 2

/-- The script's comparison `get_distance(p, x, y) < r`, embedded as the
equivalent rational comparison (see `distLt_iff_sqrt`). -/
def distLt (m : Mote) (x y r : ℚ) : Bool :=
  decide (0 < r ∧ get_distance_sq m x y < r ^ 2)

/-- `random.uniform(a, b)` = `a + (b - a) * random()`, with the unit
draw `u` made explicit. -/
def uniform (a b u : ℚ) : ℚ := a + (b - a) * u

/-- One candidate draw of the rejection-sampling loop.  In
multihop-promoting mode:
`x = random.uniform(sx - max_range / 2 + 1, sx + max_range / 2 - 1)`,
`y = random.uniform(sy + 1, sy + max_range - 1)`; in spread mode:
`x = random.uniform(sx - max_range + 1, sx + max_range - 1)`,
`y = random.uniform(sy - max_range + 1, sy + max_range - 1)`. -/
def sampleCandidate (promote : Bool) (sx sy maxRange : ℚ) (uv : ℚ × ℚ) :
    ℚ × ℚ :=
  if promote then
    (uniform (sx - maxRange / 2 + 1) (sx + maxRange / 2 - 1) uv.1,
     uniform (sy + 1) (sy + maxRange - 1) uv.2)
  else
    (uniform (sx - maxRange + 1) (sx + maxRange - 1) uv.1,
     uniform (sy - maxRange + 1) (sy + maxRange - 1) uv.2)

/-- The connectivity check: `done = True` as soon as some already-placed
mote satisfies `get_distance(p, x, y) < tx_range`. -/
def connectivityOk (placed : List Mote) (x y txRange : ℚ) : Bool :=
  placed.any fun p => distLt p x y txRange

/-- The separation re-check (run only when `args.min_distance > 0`):
the candidate is kept unless some placed mote satisfies
`get_distance(p, x, y) < args.min_distance`. -/
def separationOk (placed : List Mote) (x y : ℚ) (minDist : ℤ) : Bool :=
  placed.all fun p => !(distLt p x y (minDist : ℚ))

/-- The loop exit condition: after one attempt `done` is `True` exactly
when the connectivity check passed and, if `args.min_distance > 0`, the
separation re-check also passed. -/
def acceptedCand (placed : List Mote) (x y : ℚ) (txRange : ℚ)
    (minDist : ℤ) : Bool :=
  connectivityOk placed x y txRange &&
    (!(decide (0 < minDist)) || separationOk placed x y minDist)

/-- Parameters of one run of the placement engine: topology mode,
transmitting range, `args.min_distance`, `max_range`, and the anchor
coordinates `(sx, sy)`. -/
structure PCfg where
  promote : Bool
  txRange : ℚ
  minDist : ℤ
  maxRange : ℚ
  sx : ℚ
  sy : ℚ
deriving DecidableEq

/-- The `while not done` rejection-sampling loop for one mote, with
explicit fuel.  `n` indexes the global uniform-draw stream; on
acceptance the accepted coordinates and the advanced stream index are
returned. -/
def placeNode (cfg : PCfg) (placed : List Mote) (u : ℕ → ℚ × ℚ) :
    ℕ → ℕ → Option (ℚ × ℚ × ℕ)
  | 0, _ => none
  | fuel + 1, n =>
    let c := sampleCandidate cfg.promote cfg.sx cfg.sy cfg.maxRange (u n)
    if acceptedCand placed c.1 c.2 cfg.txRange cfg.minDist then
      some (c.1, c.2, n + 1)
    else
      placeNode cfg placed u fuel (n + 1)

/-- The `for m in c.sim.get_motes()` body for the non-anchor motes:
each remaining mote is placed by rejection sampling against the motes
placed so far, its position overwritten, and it is appended to the
placed list. -/
def placeRest (cfg : PCfg) (u : ℕ → ℚ × ℚ) (fuel : ℕ) :
    List Mote → List Mote → ℕ → Option (List Mote × ℕ)
  | [], placed, n => some (placed, n)
  | m :: rest, placed, n =>
    match placeNode cfg placed u fuel n with
    | none => none
    | some (x, y, n') =>
      placeRest cfg u fuel rest (placed ++ [{ m with x := x, y := y }]) n'

/-- One full run of the placement engine over the mote list: the first
mote keeps its original position and becomes the anchor `(sx, sy)`; the
rest are placed by rejection sampling. -/
def placeAll (promote : Bool) (txRange : ℚ) (minDist : ℤ) (maxRange : ℚ)
    (motes : List Mote) (u : ℕ → ℚ × ℚ) (fuel n : ℕ) :
    Option (List Mote × ℕ) :=
  match motes with
  | [] => some ([], n)
  | anchor :: rest =>
    placeRest ⟨promote, txRange, minDist, maxRange, anchor.x, anchor.y⟩
      u fuel rest [anchor] n

/-! ## Decimal formatting (the f-string fields of the script) -/

/-- Decimal digit to character. -/
def dChar (k : ℕ) : Char :=
  match k with
  | 0 => '0' | 1 => '1' | 2 => '2' | 3 => '3' | 4 => '4'
  | 5 => '5' | 6 => '6' | 7 => '7' | 8 => '8' | _ => '9'

/-- Character to decimal digit (10 for non-digits). -/
def dVal (c : Char) : ℕ :=
  match c with
  | '0' => 0 | '1' => 1 | '2' => 2 | '3' => 3 | '4' => 4
  | '5' => 5 | '6' => 6 | '7' => 7 | '8' => 8 | '9' => 9
  | _ => 10

/-- Big-endian decimal digits, with explicit fuel (enough fuel is
supplied by `natStr`). -/
def digitsF : ℕ → ℕ → List Char
  | 0, _ => []
  | fuel + 1, n =>
    if n < 10 then [dChar n] else digitsF fuel (n / 10) ++ [dChar (n % 10)]

/-- Decimal representation of a natural number. -/
def natStr (n : ℕ) : List Char := digitsF (n + 1) n

/-- The `{value:05}` field: decimal representation left-padded with
zeros to (at least) width 5. -/
def pad5 (n : ℕ) : List Char :=
  List.replicate (5 - (natStr n).length) '0' ++ natStr n

/-- Exactly two decimal digits (for the fractional part of `{v:.2f}`,
where the argument is already reduced mod 100). -/
def pad2c (k : ℕ) : List Char := [dChar (k / 10), dChar (k % 10)]

/-- The `{v:.2f}` field.  The script only ever formats the ratio values
that were previously rounded to 2 decimal places, for which the field
is the exact decimal representation with two fractional digits. -/
def fmt2c (q : ℚ) : List Char :=
  let n : ℤ := round (q * 100)
  (if n < 0 then ['-'] else []) ++
    natStr (n.natAbs / 100) ++ '.' :: pad2c (n.natAbs % 100)

/-- The value of a digit string read in base 10 (verification helper:
it inverts the formatting functions above, giving their injectivity). -/
def decVal (l : List Char) : ℕ :=
  l.foldl (fun a c => 10 * a + dVal c) 0

/-! ## `os.path.splitext` and the output name -/

/-- Index of the last occurrence of `c` in `l`, or `-1` (Python
`str.rfind`). -/
def rfindIdx (c : Char) (l : List Char) : ℤ :=
  match l.reverse.findIdx? (fun d => d == c) with
  | some k => (l.length : ℤ) - 1 - (k : ℤ)
  | none => -1

/-- `os.path.splitext(p)[0]` (posix rules): drop the extension starting
at the last dot, provided that dot comes after the last separator and
the basename has a non-dot character before it. -/
def splitextRootChars (p : List Char) : List Char :=
  let sep := rfindIdx '/' p
  let dot := rfindIdx '.' p
  if sep < dot then
    let fname := (p.drop (sep + 1).toNat).take (dot - sep - 1).toNat
    if fname.any (fun d => d != '.') then p.take dot.toNat else p
  else p

/-- The `-tx{t_rat:.2f}-rx{r_rat:.2f}` suffix. -/
def ratioChars (t r : ℚ) : List Char :=
  ("-tx".data ++ fmt2c t) ++ ("-rx".data ++ fmt2c r)

/-- The `-{i + 1:05}` suffix. -/
def iterChars (i1 : ℕ) : List Char := '-' :: pad5 i1

/-- Character-level output name:
`output_file = os.path.splitext(args.output)[0]`;
`if len(args.rx_ratio) != 1 or len(args.tx_ratio) != 1:` append the
ratio suffix; `if args.count > 1:` append the iteration suffix; finally
append `'.csc'`. -/
def outputNameChars (base : List Char) (txs rxs : List ℚ) (count i : ℕ)
    (t r : ℚ) : List Char :=
  base
    ++ (if rxs.length ≠ 1 ∨ txs.length ≠ 1 then ratioChars t r else [])
    ++ (if 1 < count then iterChars (i + 1) else [])
    ++ ".csc".data

/-- The artifact identifier produced in iteration `i` (0-based) for the
ratio pair `(t, r)`. -/
def outputName (output : String) (txs rxs : List ℚ) (count i : ℕ)
    (t r : ℚ) : String :=
  ⟨outputNameChars (splitextRootChars output.data) txs rxs count i t r⟩

/-- Modelled from the spec (§4.4 OutputNamer), for comparison with the
code-derived `outputName`: start from the base path without extension;
append the ratio suffix iff either ratio list has length greater
than 1; append the zero-padded iteration suffix iff the requested count
is greater than 1; append the fixed `.csc` extension. -/
def specOutputName (output : String) (txs rxs : List ℚ) (count i : ℕ)
    (t r : ℚ) : String :=
  ⟨splitextRootChars output.data
    ++ (if 1 < txs.length ∨ 1 < rxs.length then ratioChars t r else [])
    ++ (if 1 < count then iterChars (i + 1) else [])
    ++ ".csc".data⟩

/-! ## Ratio validation, rounding, sweep -/

/-- The validation `min(ratios) < 0.0 or max(ratios) > 1.0`, negated:
`true` when the list passes.  The CLI (`nargs='+'`, default `[1.0]`)
guarantees a nonempty list; on `[]` Python's `min` would raise. -/
def ratiosOk (l : List ℚ) : Bool :=
  match l with
  | [] => true
  | x :: xs => decide (0 ≤ xs.foldl min x) && decide (xs.foldl max x ≤ 1)

/-- Python 3 `round(q, 2)`: scale by 100 and round half to even.  (The
script rounds exact rationals here in place of binary floats.) -/
def round2 (q : ℚ) : ℚ :=
  let s := q * 100
  let n : ℤ :=
    if s - (⌊s⌋ : ℚ) = 1 / 2 then (if ⌊s⌋ % 2 = 0 then ⌊s⌋ else ⌊s⌋ + 1)
    else ⌊s + 1 / 2⌋
  (n : ℚ) / 100

/-- A ratio value as it is applied after rounding: in `[0, 1]` and on
the 2-decimal grid (`q * 100` is an integer). -/
def isRatio2 (q : ℚ) : Prop := 0 ≤ q ∧ q ≤ 1 ∧ (q * 100).den = 1

instance (q : ℚ) : Decidable (isRatio2 q) := by
  unfold isRatio2
  infer_instance

/-- `itertools.product(args.tx_ratio, args.rx_ratio)`: the tx-major
(outer), rx-minor (inner) cross product. -/
def sweepList (txs rxs : List ℚ) : List (ℚ × ℚ) :=
  txs.flatMap fun t => rxs.map fun r => (t, r)

/-- The artifacts emitted by iteration `i`: one per sweep pair, the pair
applied to the radio medium together with the name it is saved under. -/
def iterArtifacts (output : String) (txs rxs : List ℚ) (count i : ℕ) :
    List ((ℚ × ℚ) × String) :=
  (sweepList txs rxs).map fun p =>
    (p, outputName output txs rxs count i p.1 p.2)

/-! ## Batch controller -/

/-- The `--seed` policy: `'r'` random, `'g'` generated, `'f'` fixed. -/
inductive SeedPolicy
  | r
  | g
  | f
deriving DecidableEq

/-- The parsed CLI arguments that the generation logic consumes. -/
structure Args where
  output : String
  count : ℕ
  seedPolicy : SeedPolicy
  topology : Option String
  minDistance : ℤ
  txRatios : List ℚ
  rxRatios : List ℚ

/-- The external inputs of one process run: the loaded scenario's motes,
the UDGM transmitting range when the radio medium is a
`UDGMRadioMedium` (otherwise the script falls back to `50.0`), and the
process-global random generator, split into its `random.uniform` pair
draws `u` and its `random.randint` draws `rints`. -/
structure Ctx where
  motes : List Mote
  udgmRange : Option ℚ
  u : ℕ → ℚ × ℚ
  rints : ℕ → ℕ

/-- `tx_range = radio_medium.transmitting_range if isinstance(...,
UDGMRadioMedium) else 50.0`. -/
def txRangeOf (ctx : Ctx) : ℚ := ctx.udgmRange.getD 50

/-- `promote_multihop = True`, set to `False` when
`args.topology == 'spread'`. -/
def promoteMultihop (topology : Option String) : Bool :=
  if topology = some "spread" then false else true

/-- What one loop iteration leaves behind: the explicit simulation seed
it recorded (none under the `g` policy, which configures seed
auto-generation once for the whole batch), the mote positions after
placement, and the emitted artifacts. -/
structure IterResult where
  seed : Option ℤ
  motes : List Mote
  artifacts : List ((ℚ × ℚ) × String)
deriving DecidableEq

/-- The per-iteration seed action: policy `r` draws
`random.randint(0, 0x7fffffff)` from the global generator and sets it as
the simulation seed; policy `g` sets nothing per iteration (generation
was configured once up front); policy `f` sets the iteration index `i`
itself.  Returns the recorded seed and the advanced randint stream
position. -/
def applySeedPolicy (policy : SeedPolicy) (ctx : Ctx) (i nr : ℕ) :
    Option ℤ × ℕ :=
  match policy with
  | .r => (some (ctx.rints nr : ℤ), nr + 1)
  | .g => (none, nr)
  | .f => (some (i : ℤ), nr)

/-- The `for i in range(0, args.count)` loop, recursing on the number
`k` of remaining iterations with `i` the current index: apply the seed
policy, run the placement engine (threading the mutated mote list and
the global generator positions `n`, `nr`), emit the sweep artifacts. -/
def runBatchFrom (a : Args) (promote : Bool) (txRange maxRange : ℚ)
    (txs rxs : List ℚ) (ctx : Ctx) (fuel : ℕ) :
    ℕ → ℕ → List Mote → ℕ → ℕ → Option (List IterResult)
  | 0, _, _, _, _ => some []
  | k + 1, i, motes, n, nr =>
    let sd : Option ℤ × ℕ := applySeedPolicy a.seedPolicy ctx i nr
    match placeAll promote txRange a.minDistance maxRange motes ctx.u
        fuel n with
    | none => none
    | some (motes', n') =>
      match runBatchFrom a promote txRange maxRange txs rxs ctx fuel
          k (i + 1) motes' n' sd.2 with
      | none => none
      | some rest =>
        some ({ seed := sd.1, motes := motes',
                artifacts := iterArtifacts a.output txs rxs a.count i }
              :: rest)

/-- The whole `main` after argument parsing: ratio validation, ratio
rounding, transmitting/max range derivation, minimum-distance
feasibility check, topology-mode selection, then the batch loop.
`Except.error` is a fatal `sys.exit` with the given message; `.ok none`
means some rejection-sampling loop was still running after `fuel`
attempts; `.ok (some results)` is a completed run. -/
def mainRun (a : Args) (ctx : Ctx) (fuel : ℕ) :
    Except String (Option (List IterResult)) :=
  if ratiosOk a.txRatios = false then .error "Invalid Tx ratio"
  else if ratiosOk a.rxRatios = false then .error "Invalid Rx ratio"
  else
    let txs := a.txRatios.map round2
    let rxs := a.rxRatios.map round2
    let txRange := txRangeOf ctx
    let maxRange := txRange * (ctx.motes.length : ℚ)
    if 0 < a.minDistance ∧ txRange ≤ (a.minDistance : ℚ) then
      .error "Too large minimal distance"
    else
      .ok (runBatchFrom a (promoteMultihop a.topology) txRange maxRange
        txs rxs ctx fuel a.count 0 ctx.motes 0 0)

deriving instance DecidableEq for Except

/-! ## Concrete example inputs, used by the witnesses below -/

/-- A minimal configuration: one iteration, fixed seed, default
ratios. -/
def exArgs : Args := ⟨"o.csc", 1, .f, none, 0, [1], [1]⟩

/-- A two-mote scenario with UDGM range 50, and a global generator
whose unit draws are all `(1/2, 0)`. -/
def exCtx : Ctx := ⟨[⟨1, 0, 0⟩, ⟨2, 3, 4⟩], some 50,
  fun _ => (1 / 2, 0), fun _ => 7⟩

/-- The iteration result produced by `mainRun exArgs exCtx 2`: the
anchor stays at the origin, the second mote is placed at `(0, 1)` (the
first candidate draw is accepted), and one artifact `o.csc` is
emitted with ratio pair `(1, 1)`. -/
def exRes : IterResult := ⟨some 0, [⟨1, 0, 0⟩, ⟨2, 0, 1⟩], [((1, 1), "o.csc")]⟩

/-- `True` when the run ended in a fatal `sys.exit`. -/
def isFatal {α : Type} : Except String α → Bool := fun e =>
  match e with
  | .error _ => true
  | .ok _ => false

/-- A variant of `exCtx` whose first candidate draw lands at
`(30, 1)` — far enough from the anchor for a minimum distance of 20. -/
def exCtx2 : Ctx := ⟨[⟨1, 0, 0⟩, ⟨2, 3, 4⟩], some 50,
  fun _ => (79 / 98, 0), fun _ => 7⟩

/-- The iteration result of `mainRun` on `exCtx2` with minimum
distance 20. -/
def exRes2 : IterResult :=
  ⟨some 0, [⟨1, 0, 0⟩, ⟨2, 30, 1⟩], [((1, 1), "o.csc")]⟩

/-- A one-mote scenario whose UDGM transmitting range is `0`: here the
(disabled) minimum distance `0` is `≥` the transmitting range, yet
generation proceeds. -/
def exCtx0 : Ctx := ⟨[⟨1, 0, 0⟩], some 0, fun _ => (0, 0), fun _ => 0⟩

/-! ## Placement engine invariants -/

theorem distLt_iff_sqrt (m : Mote) (x y r : ℚ) :
    distLt m x y r = true ↔
      Real.sqrt ((get_distance_sq m x y : ℚ) : ℝ) < (r : ℝ) := by
  rw [distLt, decide_eq_true_iff]
  constructor
  · rintro ⟨hr, hd⟩
    have hr' : (0 : ℝ) < (r : ℝ) := by exact_mod_cast hr
    refine (Real.sqrt_lt' hr').2 ?_
    exact_mod_cast hd
  · intro h
    have hr' : (0 : ℝ) < (r : ℝ) :=
      lt_of_le_of_lt (Real.sqrt_nonneg _) h
    have hd := (Real.sqrt_lt' hr').1 h
    exact ⟨by exact_mod_cast hr', by exact_mod_cast hd⟩


theorem placeNode_accepted {cfg : PCfg} {placed : List Mote}
    {u : ℕ → ℚ × ℚ} {fuel n : ℕ} {x y : ℚ} {n' : ℕ}
    (h : placeNode cfg placed u fuel n = some (x, y, n')) :
    acceptedCand placed x y cfg.txRange cfg.minDist = true := by
  induction fuel generalizing n with
  | zero => simp [placeNode] at h
  | succ fuel ih =>
    simp only [placeNode] at h
    split at h
    · next hacc =>
      simp only [Option.some.injEq, Prod.mk.injEq] at h
      obtain ⟨hx, hy, -⟩ := h
      rw [← hx, ← hy]
      exact hacc
    · exact ih h

theorem placeRest_shape {cfg : PCfg} {u : ℕ → ℚ × ℚ} {fuel : ℕ} :
    ∀ {rest placed : List Mote} {n : ℕ} {res : List Mote} {n' : ℕ},
      placeRest cfg u fuel rest placed n = some (res, n') →
      ∃ tail, res = placed ++ tail ∧ tail.map Mote.id = rest.map Mote.id := by
  intro rest
  induction rest with
  | nil =>
    intro placed n res n' h
    simp only [placeRest, Option.some.injEq, Prod.mk.injEq] at h
    exact ⟨[], by simp [h.1.symm], by simp⟩
  | cons m rest ih =>
    intro placed n res n' h
    cases hpn : placeNode cfg placed u fuel n with
    | none => simp [placeRest, hpn] at h
    | some t =>
      obtain ⟨x, y, n₁⟩ := t
      simp only [placeRest, hpn] at h
      obtain ⟨tail, htail, hids⟩ := ih h
      refine ⟨{ m with x := x, y := y } :: tail, by simp [htail], by simp [hids]⟩

theorem placeRest_conn {cfg : PCfg} {u : ℕ → ℚ × ℚ} {fuel : ℕ} :
    ∀ {rest placed : List Mote} {n : ℕ} {res : List Mote} {n' : ℕ},
      placeRest cfg u fuel rest placed n = some (res, n') →
      ∀ j (hj : j < res.length), placed.length ≤ j →
        ∃ p ∈ res.take j,
          distLt p (res[j].x) (res[j].y) cfg.txRange = true := by
  intro rest
  induction rest with
  | nil =>
    intro placed n res n' h j hj hple
    simp only [placeRest, Option.some.injEq, Prod.mk.injEq] at h
    rw [← h.1] at hj
    omega
  | cons m rest ih =>
    intro placed n res n' h j hj hple
    cases hpn : placeNode cfg placed u fuel n with
    | none => simp [placeRest, hpn] at h
    | some t =>
      obtain ⟨x, y, n₁⟩ := t
      simp only [placeRest, hpn] at h
      rcases Nat.lt_or_ge j (placed.length + 1) with hcase | hcase
      · -- j = placed.length: the newly placed mote
        have hj' : j = placed.length := by omega
        subst hj'
        obtain ⟨tail, htail, -⟩ := placeRest_shape h
        have hlen : placed.length < (placed ++ [{ m with x := x, y := y }]).length := by
          simp
        have hget : res[placed.length] = { m with x := x, y := y } := by
          subst htail
          rw [List.getElem_append_left hlen]
          exact List.getElem_concat_length placed _ _ rfl hlen
        have htake : res.take placed.length = placed := by
          subst htail
          rw [List.append_assoc]
          exact List.take_left placed ([{ m with x := x, y := y }] ++ tail)
        have hacc := placeNode_accepted hpn
        have hconn : connectivityOk placed x y cfg.txRange = true := by
          unfold acceptedCand at hacc
          simp only [Bool.and_eq_true] at hacc
          exact hacc.1
        obtain ⟨p, hp, hd⟩ := List.any_eq_true.mp hconn
        refine ⟨p, by rw [htake]; exact hp, ?_⟩
        rw [hget]
        exact hd
      · -- an element placed later: use the induction hypothesis
        have := ih h j hj (by simpa using hcase)
        exact this

theorem placeRest_sep {cfg : PCfg} {u : ℕ → ℚ × ℚ} {fuel : ℕ}
    (hmd : 0 < cfg.minDist) :
    ∀ {rest placed : List Mote} {n : ℕ} {res : List Mote} {n' : ℕ},
      placeRest cfg u fuel rest placed n = some (res, n') →
      placed.Pairwise
        (fun p q => distLt p q.x q.y (cfg.minDist : ℚ) = false) →
      res.Pairwise
        (fun p q => distLt p q.x q.y (cfg.minDist : ℚ) = false) := by
  intro rest
  induction rest with
  | nil =>
    intro placed n res n' h hpw
    simp only [placeRest, Option.some.injEq, Prod.mk.injEq] at h
    rw [← h.1]
    exact hpw
  | cons m rest ih =>
    intro placed n res n' h hpw
    cases hpn : placeNode cfg placed u fuel n with
    | none => simp [placeRest, hpn] at h
    | some t =>
      obtain ⟨x, y, n₁⟩ := t
      simp only [placeRest, hpn] at h
      refine ih h ?_
      rw [List.pairwise_append]
      refine ⟨hpw, List.pairwise_singleton _ _, ?_⟩
      intro p hp b hb
      have hb' : b = { m with x := x, y := y } := by simpa using hb
      subst hb'
      have hacc := placeNode_accepted hpn
      unfold acceptedCand at hacc
      have hsep : separationOk placed x y cfg.minDist = true := by
        simp only [Bool.and_eq_true, Bool.or_eq_true] at hacc
        rcases hacc.2 with hneg | hok
        · exfalso
          rw [Bool.not_eq_eq_eq_not, Bool.not_true, decide_eq_false_iff_not] at hneg
          exact hneg hmd
        · exact hok
      have := List.all_eq_true.mp hsep p hp
      simpa using this

theorem placeAll_frame {promote : Bool} {txR : ℚ} {minD : ℤ} {maxR : ℚ}
    {motes : List Mote} {u : ℕ → ℚ × ℚ} {fuel n : ℕ}
    {res : List Mote} {n' : ℕ}
    (h : placeAll promote txR minD maxR motes u fuel n = some (res, n')) :
    res.head? = motes.head? ∧ res.map Mote.id = motes.map Mote.id := by
  cases motes with
  | nil =>
    simp only [placeAll, Option.some.injEq, Prod.mk.injEq] at h
    rw [← h.1]
    exact ⟨rfl, rfl⟩
  | cons anchor rest =>
    simp only [placeAll] at h
    obtain ⟨tail, htail, hids⟩ := placeRest_shape h
    subst htail
    simp [hids]

theorem placeAll_conn {promote : Bool} {txR : ℚ} {minD : ℤ} {maxR : ℚ}
    {motes : List Mote} {u : ℕ → ℚ × ℚ} {fuel n : ℕ}
    {res : List Mote} {n' : ℕ}
    (h : placeAll promote txR minD maxR motes u fuel n = some (res, n')) :
    ∀ j (hj : j < res.length), 0 < j →
      ∃ p ∈ res.take j, distLt p (res[j].x) (res[j].y) txR = true := by
  intro j hj hpos
  cases motes with
  | nil =>
    simp only [placeAll, Option.some.injEq, Prod.mk.injEq] at h
    rw [← h.1] at hj
    simp at hj
  | cons anchor rest =>
    simp only [placeAll] at h
    exact placeRest_conn h j hj (by simpa using hpos)

theorem placeAll_sep {promote : Bool} {txR : ℚ} {minD : ℤ} {maxR : ℚ}
    {motes : List Mote} {u : ℕ → ℚ × ℚ} {fuel n : ℕ}
    {res : List Mote} {n' : ℕ} (hmd : 0 < minD)
    (h : placeAll promote txR minD maxR motes u fuel n = some (res, n')) :
    res.Pairwise (fun p q => distLt p q.x q.y (minD : ℚ) = false) := by
  cases motes with
  | nil =>
    simp only [placeAll, Option.some.injEq, Prod.mk.injEq] at h
    rw [← h.1]
    exact List.Pairwise.nil
  | cons anchor rest =>
    simp only [placeAll] at h
    exact placeRest_sep hmd h (List.pairwise_singleton _ _)

/-! ## Batch controller invariants -/

theorem runBatchFrom_placed {a : Args} {promote : Bool} {txR maxR : ℚ}
    {txs rxs : List ℚ} {ctx : Ctx} {fuel : ℕ} :
    ∀ {k i : ℕ} {motes : List Mote} {n nr : ℕ} {l : List IterResult},
      runBatchFrom a promote txR maxR txs rxs ctx fuel k i motes n nr
        = some l →
      ∀ res ∈ l, ∃ m0 n0 n1,
        placeAll promote txR a.minDistance maxR m0 ctx.u fuel n0
          = some (res.motes, n1) := by
  intro k
  induction k with
  | zero =>
    intro i motes n nr l h res hres
    simp only [runBatchFrom, Option.some.injEq] at h
    subst h
    simp at hres
  | succ k ih =>
    intro i motes n nr l h res hres
    cases hpa : placeAll promote txR a.minDistance maxR motes ctx.u
        fuel n with
    | none => simp [runBatchFrom, hpa] at h
    | some t =>
      obtain ⟨motes', n'⟩ := t
      cases hrb : runBatchFrom a promote txR maxR txs rxs ctx fuel
          k (i + 1) motes' n' (applySeedPolicy a.seedPolicy ctx i nr).2 with
      | none => simp [runBatchFrom, hpa, hrb] at h
      | some rest =>
        simp only [runBatchFrom, hpa, hrb, Option.some.injEq] at h
        subst h
        rcases List.mem_cons.mp hres with hres | hres
        · subst hres
          exact ⟨motes, n, n', hpa⟩
        · exact ih hrb res hres

theorem runBatchFrom_artifacts {a : Args} {promote : Bool} {txR maxR : ℚ}
    {txs rxs : List ℚ} {ctx : Ctx} {fuel : ℕ} :
    ∀ {k i : ℕ} {motes : List Mote} {n nr : ℕ} {l : List IterResult},
      runBatchFrom a promote txR maxR txs rxs ctx fuel k i motes n nr
        = some l →
      ∀ res ∈ l, ∃ i',
        res.artifacts = iterArtifacts a.output txs rxs a.count i' := by
  intro k
  induction k with
  | zero =>
    intro i motes n nr l h res hres
    simp only [runBatchFrom, Option.some.injEq] at h
    subst h
    simp at hres
  | succ k ih =>
    intro i motes n nr l h res hres
    cases hpa : placeAll promote txR a.minDistance maxR motes ctx.u
        fuel n with
    | none => simp [runBatchFrom, hpa] at h
    | some t =>
      obtain ⟨motes', n'⟩ := t
      cases hrb : runBatchFrom a promote txR maxR txs rxs ctx fuel
          k (i + 1) motes' n' (applySeedPolicy a.seedPolicy ctx i nr).2 with
      | none => simp [runBatchFrom, hpa, hrb] at h
      | some rest =>
        simp only [runBatchFrom, hpa, hrb, Option.some.injEq] at h
        subst h
        rcases List.mem_cons.mp hres with hres | hres
        · subst hres
          exact ⟨i, rfl⟩
        · exact ih hrb res hres

theorem runBatchFrom_frame {a : Args} {promote : Bool} {txR maxR : ℚ}
    {txs rxs : List ℚ} {ctx : Ctx} {fuel : ℕ} :
    ∀ {k i : ℕ} {motes : List Mote} {n nr : ℕ} {l : List IterResult},
      runBatchFrom a promote txR maxR txs rxs ctx fuel k i motes n nr
        = some l →
      ∀ res ∈ l, res.motes.head? = motes.head? ∧
        res.motes.map Mote.id = motes.map Mote.id := by
  intro k
  induction k with
  | zero =>
    intro i motes n nr l h res hres
    simp only [runBatchFrom, Option.some.injEq] at h
    subst h
    simp at hres
  | succ k ih =>
    intro i motes n nr l h res hres
    cases hpa : placeAll promote txR a.minDistance maxR motes ctx.u
        fuel n with
    | none => simp [runBatchFrom, hpa] at h
    | some t =>
      obtain ⟨motes', n'⟩ := t
      cases hrb : runBatchFrom a promote txR maxR txs rxs ctx fuel
          k (i + 1) motes' n' (applySeedPolicy a.seedPolicy ctx i nr).2 with
      | none => simp [runBatchFrom, hpa, hrb] at h
      | some rest =>
        simp only [runBatchFrom, hpa, hrb, Option.some.injEq] at h
        subst h
        have hframe := placeAll_frame hpa
        rcases List.mem_cons.mp hres with hres | hres
        · subst hres
          exact hframe
        · have := ih hrb res hres
          exact ⟨this.1.trans hframe.1, this.2.trans hframe.2⟩

theorem runBatchFrom_seed {a : Args} {promote : Bool} {txR maxR : ℚ}
    {txs rxs : List ℚ} {ctx : Ctx} {fuel : ℕ} (hf : a.seedPolicy = .f) :
    ∀ {k i : ℕ} {motes : List Mote} {n nr : ℕ} {l : List IterResult},
      runBatchFrom a promote txR maxR txs rxs ctx fuel k i motes n nr
        = some l →
      ∀ j (hj : j < l.length), l[j].seed = some ((i + j : ℕ) : ℤ) := by
  intro k
  induction k with
  | zero =>
    intro i motes n nr l h j hj
    simp only [runBatchFrom, Option.some.injEq] at h
    subst h
    simp at hj
  | succ k ih =>
    intro i motes n nr l h j hj
    cases hpa : placeAll promote txR a.minDistance maxR motes ctx.u
        fuel n with
    | none => simp [runBatchFrom, hpa] at h
    | some t =>
      obtain ⟨motes', n'⟩ := t
      cases hrb : runBatchFrom a promote txR maxR txs rxs ctx fuel
          k (i + 1) motes' n' (applySeedPolicy a.seedPolicy ctx i nr).2 with
      | none => simp [runBatchFrom, hpa, hrb] at h
      | some rest =>
        simp only [runBatchFrom, hpa, hrb, Option.some.injEq] at h
        subst h
        cases j with
        | zero => simp [applySeedPolicy, hf]
        | succ j =>
          have hj' : j < rest.length := by simpa using hj
          have := ih hrb j hj'
          simpa [Nat.add_assoc, Nat.add_comm 1 j] using this

/-- Inverting a successful `mainRun`: the configuration checks passed
and the result is the batch loop's output. -/
theorem mainRun_ok {a : Args} {ctx : Ctx} {fuel : ℕ}
    {v : Option (List IterResult)} (h : mainRun a ctx fuel = .ok v) :
    ratiosOk a.txRatios = true ∧ ratiosOk a.rxRatios = true ∧
    ¬(0 < a.minDistance ∧ txRangeOf ctx ≤ (a.minDistance : ℚ)) ∧
    v = runBatchFrom a (promoteMultihop a.topology) (txRangeOf ctx)
        (txRangeOf ctx * (ctx.motes.length : ℚ))
        (a.txRatios.map round2) (a.rxRatios.map round2) ctx fuel
        a.count 0 ctx.motes 0 0 := by
  simp only [mainRun] at h
  split at h
  · exact absurd h (by simp)
  · split at h
    · exact absurd h (by simp)
    · split at h
      · exact absurd h (by simp)
      · next h1 h2 h3 =>
        refine ⟨by simpa using h1, by simpa using h2, h3, ?_⟩
        simpa using h.symm

/-! ## C1: connectivity by construction -/

/-- C1: for every run of the placement engine and every non-anchor mote
(position `j > 0` of a completed iteration's mote list), at the moment
that mote's coordinates are committed there is at least one mote placed
earlier (in the first `j` positions) whose Euclidean distance to the
committed position is strictly less than the transmitting range. -/
theorem connectivity_by_construction {a : Args} {ctx : Ctx} {fuel : ℕ}
    {results : List IterResult}
    (h : mainRun a ctx fuel = .ok (some results)) :
    ∀ res ∈ results, ∀ j mj, 0 < j →
      (res.motes.drop j).head? = some mj →
      ∃ p ∈ res.motes.take j,
        Real.sqrt ((get_distance_sq p mj.x mj.y : ℚ) : ℝ)
          < ((txRangeOf ctx : ℚ) : ℝ) := by
  obtain ⟨-, -, -, hv⟩ := mainRun_ok h
  intro res hres j mj hpos hdrop
  obtain ⟨m0, n0, n1, hpa⟩ := runBatchFrom_placed hv.symm res hres
  rw [List.head?_drop] at hdrop
  obtain ⟨hj, hget⟩ := List.getElem?_eq_some_iff.mp hdrop
  obtain ⟨p, hp, hd⟩ := placeAll_conn hpa j hj hpos
  rw [hget] at hd
  exact ⟨p, hp, (distLt_iff_sqrt _ _ _ _).1 hd⟩

theorem connectivity_by_construction_witness :
    mainRun exArgs exCtx 2 = .ok (some [exRes]) ∧ exRes ∈ [exRes] ∧
    0 < 1 ∧ (exRes.motes.drop 1).head? = some ⟨2, 0, 1⟩ ∧
    ∃ p ∈ exRes.motes.take 1,
      Real.sqrt ((get_distance_sq p (0 : ℚ) (1 : ℚ) : ℚ) : ℝ)
        < ((txRangeOf exCtx : ℚ) : ℝ) :=
  have h : mainRun exArgs exCtx 2 = .ok (some [exRes]) := by
    with_unfolding_all decide
  ⟨h, by simp, by decide, by with_unfolding_all decide,
    connectivity_by_construction h exRes (by simp) 1 ⟨2, 0, 1⟩
      (by decide) (by with_unfolding_all decide)⟩

/-! ## C2: minimum-distance separation -/

/-- C2: if the configured minimum distance `D` is positive, then after
placement completes in an iteration, every pair of placed motes has
Euclidean distance at least `D`. -/
theorem separation_pairwise {a : Args} {ctx : Ctx} {fuel : ℕ}
    {results : List IterResult}
    (h : mainRun a ctx fuel = .ok (some results))
    (hmd : 0 < a.minDistance) :
    ∀ res ∈ results,
      res.motes.Pairwise (fun p q =>
        ((a.minDistance : ℚ) : ℝ)
          ≤ Real.sqrt ((get_distance_sq p q.x q.y : ℚ) : ℝ)) := by
  obtain ⟨-, -, -, hv⟩ := mainRun_ok h
  intro res hres
  obtain ⟨m0, n0, n1, hpa⟩ := runBatchFrom_placed hv.symm res hres
  refine (placeAll_sep hmd hpa).imp ?_
  intro p q hpq
  by_contra hlt
  rw [not_le] at hlt
  have := (distLt_iff_sqrt p q.x q.y (a.minDistance : ℚ)).mpr hlt
  rw [hpq] at this
  exact Bool.false_ne_true this

theorem separation_pairwise_witness :
    mainRun { exArgs with minDistance := 20 } exCtx2 2
        = .ok (some [exRes2]) ∧
    (0 : ℤ) < 20 ∧ exRes2 ∈ [exRes2] ∧
    exRes2.motes.Pairwise (fun p q =>
      (((20 : ℤ) : ℚ) : ℝ)
        ≤ Real.sqrt ((get_distance_sq p q.x q.y : ℚ) : ℝ)) :=
  have h : mainRun { exArgs with minDistance := 20 } exCtx2 2
      = .ok (some [exRes2]) := by with_unfolding_all decide
  ⟨h, by decide, by simp,
    separation_pairwise h (by decide) exRes2 (by simp)⟩

/-! ## C3: the anchor is never moved -/

/-- C3: in every batch iteration, the first mote's coordinates after
the placement engine runs equal its coordinates before it ran (the
whole head mote, identifier and position, is unchanged), and placement
preserves the identifiers of all motes in order — it only overwrites
positions of non-anchor motes. -/
theorem anchor_invariance {a : Args} {ctx : Ctx} {fuel : ℕ}
    {results : List IterResult}
    (h : mainRun a ctx fuel = .ok (some results)) :
    ∀ res ∈ results, res.motes.head? = ctx.motes.head? ∧
      res.motes.map Mote.id = ctx.motes.map Mote.id := by
  obtain ⟨-, -, -, hv⟩ := mainRun_ok h
  intro res hres
  exact runBatchFrom_frame hv.symm res hres

theorem anchor_invariance_witness :
    mainRun exArgs exCtx 2 = .ok (some [exRes]) ∧ exRes ∈ [exRes] ∧
    exRes.motes.head? = exCtx.motes.head? ∧
    exRes.motes.map Mote.id = exCtx.motes.map Mote.id :=
  have h : mainRun exArgs exCtx 2 = .ok (some [exRes]) := by
    with_unfolding_all decide
  ⟨h, by simp, anchor_invariance h exRes (by simp)⟩

/-! ## C5: the `fixed` seed policy -/

/-- C5 (amended): under the `fixed` seed policy, the simulation seed
recorded for iteration `j` is the 0-based index `j` itself, and seeds
of distinct iterations are distinct.  (Node placements are *not*
determined by this seed: they consume the process-global generator,
see `fixed_seed_placements_not_reproducible`.) -/
theorem fixed_seed_is_iteration_index {a : Args} {ctx : Ctx} {fuel : ℕ}
    {results : List IterResult} (hf : a.seedPolicy = .f)
    (h : mainRun a ctx fuel = .ok (some results)) :
    (∀ j res', (results.drop j).head? = some res' →
      res'.seed = some (j : ℤ)) ∧
    (∀ j j' res' res'', (results.drop j).head? = some res' →
      (results.drop j').head? = some res'' → j ≠ j' →
      res'.seed ≠ res''.seed) := by
  obtain ⟨-, -, -, hv⟩ := mainRun_ok h
  have hseed : ∀ j res', (results.drop j).head? = some res' →
      res'.seed = some (j : ℤ) := by
    intro j res' hdrop
    rw [List.head?_drop] at hdrop
    obtain ⟨hj, hget⟩ := List.getElem?_eq_some_iff.mp hdrop
    have := runBatchFrom_seed hf hv.symm j hj
    rw [hget] at this
    simpa using this
  refine ⟨hseed, ?_⟩
  intro j j' res' res'' hd hd' hne
  rw [hseed j res' hd, hseed j' res'' hd']
  intro hcontra
  simp only [Option.some.injEq, Int.natCast_inj] at hcontra
  exact hne hcontra

theorem fixed_seed_is_iteration_index_witness :
    exArgs.seedPolicy = .f ∧
    mainRun exArgs exCtx 2 = .ok (some [exRes]) ∧
    (([exRes].drop 0).head? = some exRes → exRes.seed = some 0) :=
  have h : mainRun exArgs exCtx 2 = .ok (some [exRes]) := by
    with_unfolding_all decide
  ⟨rfl, h, fun hd =>
    (fixed_seed_is_iteration_index rfl h).1 0 exRes hd⟩

/-- C5 (counterexample to the claim as stated): two runs with identical
CLI inputs, identical scenario and the `fixed` policy, differing only in
the state of the process-global random generator, produce different
node placements — the fixed seed is recorded in the artifact but does
not seed the generator used for placement. -/
theorem fixed_seed_placements_not_reproducible :
    mainRun exArgs exCtx 2
      ≠ mainRun exArgs { exCtx with u := fun _ => (0, 0) } 2 := by
  with_unfolding_all decide

/-! ## C7: infeasible minimum distance -/

/-- C7 (amended): when the ratio checks pass, a *positive* minimum
distance that is `≥` the transmitting range makes the process exit
fatally with "Too large minimal distance" before any placement work;
conversely, any run that gets past configuration has minimum
distance `≤ 0` (the constraint disabled) or strictly below the
transmitting range. -/
theorem min_distance_infeasibility {a : Args} {ctx : Ctx} {fuel : ℕ}
    (htx : ratiosOk a.txRatios = true) (hrx : ratiosOk a.rxRatios = true)
    (hpos : 0 < a.minDistance)
    (hge : txRangeOf ctx ≤ (a.minDistance : ℚ)) :
    mainRun a ctx fuel = .error "Too large minimal distance" ∧
    (∀ (b : Args) (ctx' : Ctx) (fuel' : ℕ)
        (v : Option (List IterResult)), mainRun b ctx' fuel' = .ok v →
      b.minDistance ≤ 0 ∨ (b.minDistance : ℚ) < txRangeOf ctx') := by
  constructor
  · simp only [mainRun, htx]
    rw [if_neg (by simp), if_neg (by simp [hrx]), if_pos ⟨hpos, hge⟩]
  · intro b ctx' fuel' v h
    obtain ⟨-, -, hni, -⟩ := mainRun_ok h
    rcases le_or_lt b.minDistance 0 with hle | hgt
    · exact Or.inl hle
    · refine Or.inr ?_
      by_contra hcon
      exact hni ⟨hgt, not_lt.mp hcon⟩

/-- C7 (counterexample to the claim as stated): with minimum
distance `0` and transmitting range `0` the configured minimum distance
is `≥` the transmitting range, but the process does *not* terminate
fatally — it completes and emits an artifact, because the script only
performs the feasibility check when `args.min_distance > 0`. -/
theorem min_distance_check_skipped_at_zero :
    txRangeOf exCtx0 ≤ ((exArgs.minDistance : ℤ) : ℚ) ∧
    mainRun exArgs exCtx0 1
      = .ok (some [⟨some 0, [⟨1, 0, 0⟩], [((1, 1), "o.csc")]⟩]) := by
  with_unfolding_all decide

theorem min_distance_infeasibility_witness :
    ratiosOk exArgs.txRatios = true ∧ ratiosOk exArgs.rxRatios = true ∧
    (0 : ℤ) < 60 ∧
    txRangeOf exCtx ≤ (((60 : ℤ) : ℚ)) ∧
    (mainRun { exArgs with minDistance := 60 } exCtx 1
        = .error "Too large minimal distance" ∧
      (∀ (b : Args) (ctx' : Ctx) (fuel' : ℕ)
          (v : Option (List IterResult)), mainRun b ctx' fuel' = .ok v →
        b.minDistance ≤ 0 ∨ (b.minDistance : ℚ) < txRangeOf ctx')) :=
  ⟨by decide, by decide, by decide, by with_unfolding_all decide,
    min_distance_infeasibility (a := { exArgs with minDistance := 60 })
      (by decide) (by decide) (by decide)
      (by with_unfolding_all decide)⟩

/-! ## C10: the topology-mode selector -/

/-- C10: every value of `--topology` other than the exact string
`spread` — including its absence — selects multihop-promoting mode;
`spread` disables it; and no topology value is ever rejected: whether
`mainRun` exits fatally does not depend on the topology value at all. -/
theorem topology_mode_never_rejected :
    (∀ t : Option String, t ≠ some "spread" → promoteMultihop t = true) ∧
    promoteMultihop (some "spread") = false ∧
    (∀ (a : Args) (t₁ t₂ : Option String) (ctx : Ctx) (fuel : ℕ),
      isFatal (mainRun { a with topology := t₁ } ctx fuel)
        = isFatal (mainRun { a with topology := t₂ } ctx fuel)) := by
  refine ⟨?_, rfl, ?_⟩
  · intro t ht
    unfold promoteMultihop
    rw [if_neg ht]
  · intro a t₁ t₂ ctx fuel
    by_cases h1 : ratiosOk a.txRatios = false
    · simp [mainRun, isFatal, h1]
    · by_cases h2 : ratiosOk a.rxRatios = false
      · simp [mainRun, isFatal, h1, h2]
      · by_cases h3 : 0 < a.minDistance ∧ txRangeOf ctx ≤ (a.minDistance : ℚ)
        · simp [mainRun, isFatal, h1, h2, h3]
        · simp [mainRun, isFatal, h1, h2, h3]

theorem topology_mode_never_rejected_witness :
    (some "multihop" : Option String) ≠ some "spread" ∧
    promoteMultihop (some "multihop") = true :=
  ⟨by decide, topology_mode_never_rejected.1 (some "multihop") (by decide)⟩

/-! ## C6: ratio validation and rounding -/

theorem foldl_min_le (xs : List ℚ) :
    ∀ a : ℚ, xs.foldl min a ≤ a ∧ ∀ q ∈ xs, xs.foldl min a ≤ q := by
  induction xs with
  | nil => intro a; exact ⟨le_refl _, by simp⟩
  | cons y xs ih =>
    intro a
    have h := ih (min a y)
    refine ⟨h.1.trans (min_le_left _ _), ?_⟩
    intro q hq
    rcases List.mem_cons.mp hq with rfl | hq
    · exact h.1.trans (min_le_right _ _)
    · exact h.2 q hq

theorem foldl_min_mem (xs : List ℚ) :
    ∀ a : ℚ, xs.foldl min a = a ∨ xs.foldl min a ∈ xs := by
  induction xs with
  | nil => intro a; exact Or.inl rfl
  | cons y xs ih =>
    intro a
    rcases ih (min a y) with h | h
    · rw [List.foldl_cons, h]
      rcases min_choice a y with h' | h'
      · exact Or.inl h'
      · exact Or.inr (by rw [h']; exact List.mem_cons_self _ _)
    · exact Or.inr (List.mem_cons_of_mem _ (by rw [List.foldl_cons]; exact h))

theorem le_foldl_max (xs : List ℚ) :
    ∀ a : ℚ, a ≤ xs.foldl max a ∧ ∀ q ∈ xs, q ≤ xs.foldl max a := by
  induction xs with
  | nil => intro a; exact ⟨le_refl _, by simp⟩
  | cons y xs ih =>
    intro a
    have h := ih (max a y)
    refine ⟨(le_max_left _ _).trans h.1, ?_⟩
    intro q hq
    rcases List.mem_cons.mp hq with rfl | hq
    · exact (le_max_right _ _).trans h.1
    · exact h.2 q hq

theorem foldl_max_mem (xs : List ℚ) :
    ∀ a : ℚ, xs.foldl max a = a ∨ xs.foldl max a ∈ xs := by
  induction xs with
  | nil => intro a; exact Or.inl rfl
  | cons y xs ih =>
    intro a
    rcases ih (max a y) with h | h
    · rw [List.foldl_cons, h]
      rcases max_choice a y with h' | h'
      · exact Or.inl h'
      · exact Or.inr (by rw [h']; exact List.mem_cons_self _ _)
    · exact Or.inr (List.mem_cons_of_mem _ (by rw [List.foldl_cons]; exact h))

/-- The `min(l) < 0 or max(l) > 1` validation passes exactly when every
element lies in `[0, 1]`. -/
theorem ratiosOk_iff (l : List ℚ) :
    ratiosOk l = true ↔ ∀ q ∈ l, 0 ≤ q ∧ q ≤ 1 := by
  cases l with
  | nil => simp [ratiosOk]
  | cons x xs =>
    simp only [ratiosOk, Bool.and_eq_true, decide_eq_true_iff]
    constructor
    · rintro ⟨hmin, hmax⟩ q hq
      have hminq : xs.foldl min x ≤ q := by
        rcases List.mem_cons.mp hq with rfl | hq'
        · exact (foldl_min_le _ _).1
        · exact (foldl_min_le xs x).2 q hq'
      have hmaxq : q ≤ xs.foldl max x := by
        rcases List.mem_cons.mp hq with rfl | hq'
        · exact (le_foldl_max _ _).1
        · exact (le_foldl_max xs x).2 q hq'
      exact ⟨hmin.trans hminq, hmaxq.trans hmax⟩
    · intro h
      constructor
      · rcases foldl_min_mem xs x with hm | hm
        · rw [hm]; exact (h x (List.mem_cons_self _ _)).1
        · exact (h _ (List.mem_cons_of_mem _ hm)).1
      · rcases foldl_max_mem xs x with hm | hm
        · rw [hm]; exact (h x (List.mem_cons_self _ _)).2
        · exact (h _ (List.mem_cons_of_mem _ hm)).2

/-- Rounding a value of `[0, 1]` half-to-even at 2 decimals stays in
`[0, 1]` and lands on an integer multiple of `1/100`. -/
theorem round2_bounds {q : ℚ} (h0 : 0 ≤ q) (h1 : q ≤ 1) :
    0 ≤ round2 q ∧ round2 q ≤ 1 ∧ (round2 q * 100).den = 1 := by
  have hs0 : (0 : ℚ) ≤ q * 100 := by positivity
  have hs1 : q * 100 ≤ 100 := by linarith
  set s := q * 100 with hs
  have hn : ∀ n : ℤ, 0 ≤ n → n ≤ 100 →
      0 ≤ ((n : ℚ) / 100) ∧ ((n : ℚ) / 100) ≤ 1 ∧
        (((n : ℚ) / 100) * 100).den = 1 := by
    intro n hn0 hn100
    have hc : ((n : ℚ) / 100) * 100 = (n : ℚ) := by
      field_simp
    refine ⟨by positivity, ?_, by rw [hc]; exact Rat.den_intCast n⟩
    rw [div_le_one (by norm_num)]
    exact_mod_cast hn100
  rw [round2]
  simp only [← hs]
  split
  · next htie =>
    have hfl0 : (0 : ℤ) ≤ ⌊s⌋ := Int.le_floor.mpr (by exact_mod_cast hs0)
    have hfl100 : ⌊s⌋ ≤ 99 := by
      have : (⌊s⌋ : ℚ) = s - 1 / 2 := by linarith [htie]
      have h2 : (⌊s⌋ : ℚ) ≤ 199 / 2 := by rw [this]; linarith
      by_contra hcon
      push_neg at hcon
      have : (100 : ℚ) ≤ (⌊s⌋ : ℚ) := by exact_mod_cast hcon
      linarith
    split
    · exact hn _ hfl0 (by omega)
    · exact hn _ (by omega) (by omega)
  · next htie =>
    refine hn _ (Int.le_floor.mpr (by push_cast; linarith)) ?_
    rw [Int.floor_le_iff]
    push_cast
    linarith

/-- Membership in the sweep cross product decomposes componentwise. -/
theorem mem_sweepList {txs rxs : List ℚ} {p : ℚ × ℚ} :
    p ∈ sweepList txs rxs ↔ p.1 ∈ txs ∧ p.2 ∈ rxs := by
  cases p with
  | mk t r =>
    simp only [sweepList, List.mem_flatMap, List.mem_map, Prod.mk.injEq]
    constructor
    · rintro ⟨t', ht', r', hr', rfl, rfl⟩
      exact ⟨ht', hr'⟩
    · rintro ⟨ht, hr⟩
      exact ⟨t, ht, r, hr, rfl, rfl⟩

/-- C6: if any configured tx or rx ratio lies outside `[0, 1]`, the
process exits fatally before any placement occurs and no artifact is
emitted; otherwise every ratio value applied to the radio profile
equals some configured value rounded to 2 decimal places and lies
within `[0, 1]`. -/
theorem ratio_validation_and_rounding {a : Args} {ctx : Ctx} {fuel : ℕ} :
    ((∃ q ∈ a.txRatios ++ a.rxRatios, q < 0 ∨ 1 < q) →
      ∃ msg, mainRun a ctx fuel = .error msg) ∧
    ((∀ q ∈ a.txRatios ++ a.rxRatios, 0 ≤ q ∧ q ≤ 1) →
      ∀ results, mainRun a ctx fuel = .ok (some results) →
      ∀ res ∈ results, ∀ art ∈ res.artifacts,
        art.1.1 ∈ a.txRatios.map round2 ∧
        art.1.2 ∈ a.rxRatios.map round2 ∧
        0 ≤ art.1.1 ∧ art.1.1 ≤ 1 ∧ 0 ≤ art.1.2 ∧ art.1.2 ≤ 1) := by
  constructor
  · rintro ⟨q, hq, hbad⟩
    have hbad' : ¬(0 ≤ q ∧ q ≤ 1) := by
      rcases hbad with h | h
      · exact fun hc => absurd hc.1 (not_le.mpr h)
      · exact fun hc => absurd hc.2 (not_le.mpr h)
    rcases List.mem_append.mp hq with hmem | hmem
    · have htx : ratiosOk a.txRatios = false := by
        cases hok : ratiosOk a.txRatios with
        | false => rfl
        | true => exact absurd ((ratiosOk_iff _).mp hok q hmem) hbad'
      exact ⟨"Invalid Tx ratio", by simp [mainRun, htx]⟩
    · cases hok : ratiosOk a.txRatios with
      | false => exact ⟨"Invalid Tx ratio", by simp [mainRun, hok]⟩
      | true =>
        have hrx : ratiosOk a.rxRatios = false := by
          cases hok' : ratiosOk a.rxRatios with
          | false => rfl
          | true => exact absurd ((ratiosOk_iff _).mp hok' q hmem) hbad'
        exact ⟨"Invalid Rx ratio", by simp [mainRun, hok, hrx]⟩
  · intro hgood results h res hres art hart
    obtain ⟨-, -, -, hv⟩ := mainRun_ok h
    obtain ⟨i', harts⟩ := runBatchFrom_artifacts hv.symm res hres
    rw [harts] at hart
    obtain ⟨p, hp, hpair⟩ := List.mem_map.mp hart
    have hp1 : art.1 = p := by rw [← hpair]
    have hmem := mem_sweepList.mp hp
    rw [hp1]
    obtain ⟨q1, hq1, he1⟩ := List.mem_map.mp hmem.1
    obtain ⟨q2, hq2, he2⟩ := List.mem_map.mp hmem.2
    have hb1 := hgood q1 (List.mem_append.mpr (Or.inl hq1))
    have hb2 := hgood q2 (List.mem_append.mpr (Or.inr hq2))
    have hr1 := round2_bounds hb1.1 hb1.2
    have hr2 := round2_bounds hb2.1 hb2.2
    rw [← he1, ← he2]
    exact ⟨List.mem_map.mpr ⟨q1, hq1, rfl⟩, List.mem_map.mpr ⟨q2, hq2, rfl⟩,
      hr1.1, hr1.2.1, hr2.1, hr2.2.1⟩

theorem ratio_validation_and_rounding_witness :
    ((∃ q ∈ ({ exArgs with txRatios := [2] } : Args).txRatios ++
        ({ exArgs with txRatios := [2] } : Args).rxRatios,
        q < 0 ∨ 1 < q) ∧
      ∃ msg, mainRun { exArgs with txRatios := [2] } exCtx 1
        = .error msg) ∧
    ((∀ q ∈ exArgs.txRatios ++ exArgs.rxRatios, 0 ≤ q ∧ q ≤ 1) ∧
      mainRun exArgs exCtx 2 = .ok (some [exRes]) ∧
      exRes ∈ [exRes] ∧ ((1, 1), "o.csc") ∈ exRes.artifacts ∧
      ((1 : ℚ) ∈ exArgs.txRatios.map round2 ∧
        (1 : ℚ) ∈ exArgs.rxRatios.map round2 ∧
        (0 : ℚ) ≤ 1 ∧ (1 : ℚ) ≤ 1 ∧ (0 : ℚ) ≤ 1 ∧ (1 : ℚ) ≤ 1)) :=
  have hbad : ∃ q ∈ ({ exArgs with txRatios := [2] } : Args).txRatios ++
      ({ exArgs with txRatios := [2] } : Args).rxRatios, q < 0 ∨ 1 < q := by
    with_unfolding_all decide
  have hgood : ∀ q ∈ exArgs.txRatios ++ exArgs.rxRatios,
      0 ≤ q ∧ q ≤ 1 := by with_unfolding_all decide
  have hok : mainRun exArgs exCtx 2 = .ok (some [exRes]) := by
    with_unfolding_all decide
  ⟨⟨hbad, ratio_validation_and_rounding.1 hbad⟩,
    ⟨hgood, hok, by simp, by with_unfolding_all decide,
      ratio_validation_and_rounding.2 hgood [exRes] hok exRes (by simp)
        ((1, 1), "o.csc") (by with_unfolding_all decide)⟩⟩

/-! ## C8: sweep completeness and order -/

theorem sweepList_nil_right (txs : List ℚ) : sweepList txs [] = [] := by
  simp [sweepList]

theorem sweepList_cons (t0 : ℚ) (ts rxs : List ℚ) :
    sweepList (t0 :: ts) rxs
      = rxs.map (fun r => (t0, r)) ++ sweepList ts rxs := by
  simp [sweepList]

theorem sweepList_length (txs rxs : List ℚ) :
    (sweepList txs rxs).length = txs.length * rxs.length := by
  induction txs with
  | nil => simp [sweepList]
  | cons t ts ih =>
    rw [sweepList_cons]
    simp only [List.length_append, List.length_map, List.length_cons, ih]
    ring

theorem sweepList_getElem?_pos (rxs : List ℚ) (hL : 0 < rxs.length) :
    ∀ (txs : List ℚ) (k : ℕ) (t r : ℚ),
      (sweepList txs rxs)[k]? = some (t, r) →
      txs[k / rxs.length]? = some t ∧ rxs[k % rxs.length]? = some r := by
  intro txs
  induction txs with
  | nil =>
    intro k t r h
    simp [sweepList] at h
  | cons t0 ts ih =>
    intro k t r h
    rw [sweepList_cons] at h
    rcases Nat.lt_or_ge k rxs.length with hk | hk
    · rw [List.getElem?_append_left (by simpa using hk)] at h
      rw [List.getElem?_map] at h
      rcases Option.map_eq_some'.mp h with ⟨r', hr', heq⟩
      obtain ⟨rfl, rfl⟩ := Prod.mk.injEq .. ▸ heq
      rw [Nat.div_eq_of_lt hk, Nat.mod_eq_of_lt hk]
      exact ⟨by simp, hr'⟩
    · obtain ⟨j, rfl⟩ : ∃ j, k = j + rxs.length := ⟨k - rxs.length, by omega⟩
      rw [List.getElem?_append_right (by simp)] at h
      simp only [List.length_map, Nat.add_sub_cancel] at h
      obtain ⟨h1, h2⟩ := ih j t r h
      rw [Nat.add_div_right _ hL, Nat.add_mod_right]
      exact ⟨by simpa using h1, h2⟩

/-- The `k`-th pair of the sweep: major index `k / |rxs|` into the tx
list, minor index `k % |rxs|` into the rx list — the nested-loop order
of `itertools.product`. -/
theorem sweepList_getElem?_eq (txs rxs : List ℚ) (k : ℕ) (t r : ℚ)
    (h : (sweepList txs rxs)[k]? = some (t, r)) :
    txs[k / rxs.length]? = some t ∧ rxs[k % rxs.length]? = some r := by
  cases rxs with
  | nil => rw [sweepList_nil_right] at h; simp at h
  | cons r0 rs => exact sweepList_getElem?_pos (r0 :: rs) (by simp) txs k t r h

/-- C8: each iteration emits exactly `|tx list| × |rx list|` artifacts,
one per cross-product pair, in tx-major order with the rx value varying
fastest. -/
theorem sweep_completeness {a : Args} {ctx : Ctx} {fuel : ℕ}
    {results : List IterResult}
    (h : mainRun a ctx fuel = .ok (some results)) :
    ∀ res ∈ results,
      res.artifacts.length
          = (a.txRatios.map round2).length *
            (a.rxRatios.map round2).length ∧
      ∀ (k : ℕ) (p : ℚ × ℚ) (nm : String),
        res.artifacts[k]? = some (p, nm) →
        (a.txRatios.map round2)[k / (a.rxRatios.map round2).length]?
            = some p.1 ∧
        (a.rxRatios.map round2)[k % (a.rxRatios.map round2).length]?
            = some p.2 := by
  obtain ⟨-, -, -, hv⟩ := mainRun_ok h
  intro res hres
  obtain ⟨i', harts⟩ := runBatchFrom_artifacts hv.symm res hres
  rw [harts]
  constructor
  · simp [iterArtifacts, sweepList_length]
  · intro k p nm hk
    rw [iterArtifacts, List.getElem?_map] at hk
    rcases Option.map_eq_some'.mp hk with ⟨q, hq, heq⟩
    have hqp : q = p := congrArg Prod.fst heq
    subst hqp
    exact sweepList_getElem?_eq _ _ k q.1 q.2 (by simpa using hq)

theorem sweep_completeness_witness :
    mainRun exArgs exCtx 2 = .ok (some [exRes]) ∧ exRes ∈ [exRes] ∧
    (exRes.artifacts.length
        = (exArgs.txRatios.map round2).length *
          (exArgs.rxRatios.map round2).length ∧
      ∀ (k : ℕ) (p : ℚ × ℚ) (nm : String),
        exRes.artifacts[k]? = some (p, nm) →
        (exArgs.txRatios.map round2)[k /
            (exArgs.rxRatios.map round2).length]? = some p.1 ∧
        (exArgs.rxRatios.map round2)[k %
            (exArgs.rxRatios.map round2).length]? = some p.2) :=
  have h : mainRun exArgs exCtx 2 = .ok (some [exRes]) := by
    with_unfolding_all decide
  ⟨h, by simp, sweep_completeness h exRes (by simp)⟩

/-! ## C9: the output-name refinement -/

/-- C9: the code's suffix conditions (`len(rx) != 1 or len(tx) != 1`,
`count > 1`) coincide with the specified ones (`either list longer
than 1`, `count > 1`) for the nonempty ratio lists the CLI guarantees,
so the artifact identifier is exactly the specified deterministic
function of (base path, iteration index, count, ratio pair). -/
theorem output_name_spec {output : String} {txs rxs : List ℚ}
    {count i : ℕ} {t r : ℚ} (htx : txs ≠ []) (hrx : rxs ≠ []) :
    outputName output txs rxs count i t r
      = specOutputName output txs rxs count i t r := by
  have h1 : 0 < txs.length := List.length_pos.mpr htx
  have h2 : 0 < rxs.length := List.length_pos.mpr hrx
  have hiff : (rxs.length ≠ 1 ∨ txs.length ≠ 1)
      ↔ (1 < txs.length ∨ 1 < rxs.length) := by omega
  rw [outputName, specOutputName, outputNameChars, if_congr hiff rfl rfl]

theorem output_name_spec_witness :
    ([(1 : ℚ) / 2, 1] : List ℚ) ≠ [] ∧ ([(1 : ℚ)] : List ℚ) ≠ [] ∧
    outputName "o.csc" [1 / 2, 1] [1] 2 0 (1 / 2) 1
      = specOutputName "o.csc" [1 / 2, 1] [1] 2 0 (1 / 2) 1 :=
  ⟨by decide, by decide,
    output_name_spec (by decide) (by decide)⟩

/-! ## Decimal-format injectivity toolkit (for C4) -/

theorem dVal_dChar : ∀ k < 10, dVal (dChar k) = k := by decide

theorem dChar_inj : ∀ a < 10, ∀ b < 10, dChar a = dChar b → a = b := by
  decide

theorem foldl_decVal (l : List Char) :
    ∀ a : ℕ, l.foldl (fun a c => 10 * a + dVal c) a
      = a * 10 ^ l.length + decVal l := by
  induction l with
  | nil => intro a; simp [decVal]
  | cons c l ih =>
    intro a
    simp only [List.foldl_cons, List.length_cons, decVal] at ih ⊢
    rw [ih (10 * a + dVal c), ih (10 * 0 + dVal c)]
    ring

theorem decVal_append (l1 l2 : List Char) :
    decVal (l1 ++ l2) = decVal l1 * 10 ^ l2.length + decVal l2 := by
  rw [decVal, List.foldl_append, ← decVal, foldl_decVal]

theorem decVal_replicate_zero (k : ℕ) :
    decVal (List.replicate k '0') = 0 := by
  induction k with
  | zero => rfl
  | succ k ih =>
    rw [List.replicate_succ, decVal, List.foldl_cons]
    have h0 : (10 * 0 + dVal '0') = 0 := by decide
    rw [h0, ← decVal, ih]

theorem decVal_digitsF : ∀ fuel n, n < 10 ^ fuel →
    decVal (digitsF fuel n) = n := by
  intro fuel
  induction fuel with
  | zero =>
    intro n hn
    interval_cases n
    rfl
  | succ fuel ih =>
    intro n hn
    rw [digitsF]
    split
    · next h10 =>
      show decVal [dChar n] = n
      rw [decVal, List.foldl_cons]
      simpa using dVal_dChar n h10
    · next h10 =>
      rw [decVal_append]
      have hdiv : n / 10 < 10 ^ fuel := by
        rw [Nat.div_lt_iff_lt_mul (by norm_num)]
        calc n < 10 ^ (fuel + 1) := hn
          _ = 10 ^ fuel * 10 := by rw [pow_succ]
      rw [ih (n / 10) hdiv]
      have hmod : decVal [dChar (n % 10)] = n % 10 := by
        rw [decVal, List.foldl_cons]
        simpa using dVal_dChar (n % 10) (Nat.mod_lt n (by norm_num))
      rw [hmod]
      simp only [List.length_cons, List.length_nil, pow_one]
      omega

theorem decVal_natStr (n : ℕ) : decVal (natStr n) = n := by
  rw [natStr]
  refine decVal_digitsF (n + 1) n ?_
  calc n < 10 ^ n := Nat.lt_pow_self (by norm_num) n
    _ ≤ 10 ^ (n + 1) := Nat.pow_le_pow_right (by norm_num) (Nat.le_succ n)

theorem natStr_inj {n m : ℕ} (h : natStr n = natStr m) : n = m := by
  rw [← decVal_natStr n, ← decVal_natStr m, h]

theorem decVal_pad5 (n : ℕ) : decVal (pad5 n) = n := by
  rw [pad5, decVal_append, decVal_replicate_zero, decVal_natStr]
  ring

theorem pad5_inj {n m : ℕ} (h : pad5 n = pad5 m) : n = m := by
  rw [← decVal_pad5 n, ← decVal_pad5 m, h]

theorem iterChars_inj {n m : ℕ} (h : iterChars n = iterChars m) :
    n = m := by
  rw [iterChars, iterChars] at h
  exact pad5_inj (List.cons.injEq .. ▸ h).2

theorem pad2c_inj {k k' : ℕ} (hk : k < 100) (hk' : k' < 100)
    (h : pad2c k = pad2c k') : k = k' := by
  rw [pad2c, pad2c] at h
  simp only [List.cons.injEq, and_true] at h
  have h1 := dChar_inj (k / 10) (by omega) (k' / 10) (by omega) h.1
  have h2 := dChar_inj (k % 10) (by omega) (k' % 10) (by omega) h.2
  omega

theorem natStr_small {m : ℕ} (hm : m < 10) : natStr m = [dChar m] := by
  rw [natStr, digitsF, if_pos hm]

/-- For a value of `[0, 1]` lying on the 2-decimal grid, the integer
that `fmt2c` formats is the numerator of `q * 100`, in `[0, 100]`. -/
theorem isRatio2_num {q : ℚ} (h : isRatio2 q) :
    round (q * 100) = (q * 100).num ∧ 0 ≤ (q * 100).num ∧
      (q * 100).num ≤ 100 := by
  obtain ⟨h0, h1, hden⟩ := h
  have hcast : ((q * 100).num : ℚ) = q * 100 := (Rat.den_eq_one_iff _).mp hden
  have hr : round (q * 100) = round (((q * 100).num : ℚ)) := by
    rw [hcast]
  refine ⟨by rw [hr, round_intCast], ?_, ?_⟩
  · have : (0 : ℚ) ≤ ((q * 100).num : ℚ) := by
      rw [hcast]; positivity
    exact_mod_cast this
  · have : ((q * 100).num : ℚ) ≤ 100 := by
      rw [hcast]; linarith
    exact_mod_cast this

theorem fmt2c_eq {q : ℚ} (h : isRatio2 q) :
    fmt2c q = natStr ((q * 100).num.natAbs / 100) ++
      '.' :: pad2c ((q * 100).num.natAbs % 100) := by
  obtain ⟨hround, hn0, hn100⟩ := isRatio2_num h
  rw [fmt2c]
  simp only [hround]
  rw [if_neg (not_lt.mpr hn0)]
  simp

theorem isRatio2_natAbs_le {q : ℚ} (h : isRatio2 q) :
    (q * 100).num.natAbs ≤ 100 := by
  obtain ⟨-, hn0, hn100⟩ := isRatio2_num h
  have := Int.natAbs_of_nonneg hn0
  omega

theorem fmt2c_length {q : ℚ} (h : isRatio2 q) : (fmt2c q).length = 4 := by
  rw [fmt2c_eq h]
  have hle := isRatio2_natAbs_le h
  have hd : (q * 100).num.natAbs / 100 < 10 := by omega
  rw [natStr_small hd]
  simp [pad2c]

theorem fmt2c_inj {q q' : ℚ} (h : isRatio2 q) (h' : isRatio2 q')
    (heq : fmt2c q = fmt2c q') : q = q' := by
  obtain ⟨-, hn0, hn100⟩ := isRatio2_num h
  obtain ⟨-, hn0', hn100'⟩ := isRatio2_num h'
  have hle := isRatio2_natAbs_le h
  have hle' := isRatio2_natAbs_le h'
  set n := (q * 100).num.natAbs with hn
  set n' := (q' * 100).num.natAbs with hn'
  rw [fmt2c_eq h, fmt2c_eq h'] at heq
  have hd : n / 100 < 10 := by omega
  have hd' : n' / 100 < 10 := by omega
  rw [natStr_small hd, natStr_small hd'] at heq
  simp only [List.cons_append, List.nil_append, List.cons.injEq] at heq
  obtain ⟨hc, -, hpad⟩ := heq
  have hdiv := dChar_inj (n / 100) hd (n' / 100) hd' hc
  have hmod := pad2c_inj (Nat.mod_lt _ (by norm_num))
    (Nat.mod_lt _ (by norm_num)) hpad
  have hnn' : n = n' := by omega
  have hnum : (q * 100).num = (q' * 100).num := by
    have e1 := Int.natAbs_of_nonneg hn0
    have e2 := Int.natAbs_of_nonneg hn0'
    omega
  have hcast : ((q * 100).num : ℚ) = q * 100 :=
    (Rat.den_eq_one_iff _).mp h.2.2
  have hcast' : ((q' * 100).num : ℚ) = q' * 100 :=
    (Rat.den_eq_one_iff _).mp h'.2.2
  have : q * 100 = q' * 100 := by
    rw [← hcast, ← hcast', hnum]
  linarith

theorem ratioChars_length {t r : ℚ} (ht : isRatio2 t) (hr : isRatio2 r) :
    (ratioChars t r).length = 14 := by
  rw [ratioChars]
  simp [fmt2c_length ht, fmt2c_length hr]

theorem ratioChars_inj {t r t' r' : ℚ} (ht : isRatio2 t)
    (hr : isRatio2 r) (ht' : isRatio2 t') (hr' : isRatio2 r')
    (heq : ratioChars t r = ratioChars t' r') : t = t' ∧ r = r' := by
  rw [ratioChars, ratioChars] at heq
  have hlen : ("-tx".data ++ fmt2c t).length
      = ("-tx".data ++ fmt2c t').length := by
    simp [fmt2c_length ht, fmt2c_length ht']
  obtain ⟨hleft, hright⟩ := List.append_inj heq hlen
  have h1 : fmt2c t = fmt2c t' := List.append_cancel_left hleft
  have h2 : fmt2c r = fmt2c r' := List.append_cancel_left hright
  exact ⟨fmt2c_inj ht ht' h1, fmt2c_inj hr hr' h2⟩

/-- The master injectivity fact for the name construction: within one
invocation (same base, lists, count), equal names force equal ratio
values (when the ratio suffix is present) and equal iteration indices
(when the index suffix is present). -/
theorem outputNameChars_inj (base : List Char) (txs rxs : List ℚ)
    (count i i' : ℕ) (t r t' r' : ℚ)
    (ht : isRatio2 t) (hr : isRatio2 r)
    (ht' : isRatio2 t') (hr' : isRatio2 r')
    (heq : outputNameChars base txs rxs count i t r
      = outputNameChars base txs rxs count i' t' r') :
    ((rxs.length ≠ 1 ∨ txs.length ≠ 1) → t = t' ∧ r = r') ∧
    (1 < count → i = i') := by
  rw [outputNameChars, outputNameChars] at heq
  simp only [List.append_assoc] at heq
  have heq1 := List.append_cancel_left heq
  by_cases hc : rxs.length ≠ 1 ∨ txs.length ≠ 1
  · rw [if_pos hc, if_pos hc] at heq1
    have hlen : (ratioChars t r).length = (ratioChars t' r').length := by
      rw [ratioChars_length ht hr, ratioChars_length ht' hr']
    obtain ⟨hratio, hrest⟩ := List.append_inj heq1 hlen
    obtain ⟨htt, hrr⟩ := ratioChars_inj ht hr ht' hr' hratio
    refine ⟨fun _ => ⟨htt, hrr⟩, ?_⟩
    intro hcount
    rw [if_pos hcount, if_pos hcount] at hrest
    have hilen : (iterChars (i + 1)).length
        = (iterChars (i' + 1)).length := by
      have := congrArg List.length hrest
      simp only [List.length_append] at this
      omega
    obtain ⟨hiter, -⟩ := List.append_inj hrest hilen
    have := iterChars_inj hiter
    omega
  · rw [if_neg hc, if_neg hc] at heq1
    simp only [List.nil_append] at heq1
    refine ⟨fun h => absurd h hc, ?_⟩
    intro hcount
    rw [if_pos hcount, if_pos hcount] at heq1
    have hilen : (iterChars (i + 1)).length
        = (iterChars (i' + 1)).length := by
      have := congrArg List.length heq1
      simp only [List.length_append] at this
      omega
    obtain ⟨hiter, -⟩ := List.append_inj heq1 hilen
    have := iterChars_inj hiter
    omega

/-! ## C4: artifact-name injectivity -/

theorem sweepList_nodup {txs rxs : List ℚ} (ntx : txs.Nodup)
    (nrx : rxs.Nodup) : (sweepList txs rxs).Nodup := by
  induction txs with
  | nil => simp [sweepList]
  | cons t0 ts ih =>
    rw [sweepList_cons, List.nodup_append]
    obtain ⟨hnotmem, nts⟩ := List.nodup_cons.mp ntx
    refine ⟨nrx.map (fun r r' h => congrArg Prod.snd h), ih nts, ?_⟩
    intro p hp hp'
    obtain ⟨r0, -, hr0⟩ := List.mem_map.mp hp
    have h1 : p.1 = t0 := by rw [← hr0]
    have h2 : p.1 ∈ ts := (mem_sweepList.mp hp').1
    rw [h1] at h2
    exact hnotmem h2

/-- C4 (amended): provided the (rounded, as-applied) tx and rx ratio
lists each contain no duplicate values, any two distinct
(iteration index, sweep position) combinations of one invocation
receive distinct artifact identifiers. -/
theorem artifact_names_inj (output : String) (txs rxs : List ℚ)
    (count : ℕ)
    (htx : ∀ q ∈ txs, isRatio2 q) (hrx : ∀ q ∈ rxs, isRatio2 q)
    (ntx : txs.Nodup) (nrx : rxs.Nodup)
    (i i' k k' : ℕ) (hi : i < count) (hi' : i' < count)
    (hk : k < (iterArtifacts output txs rxs count i).length)
    (hk' : k' < (iterArtifacts output txs rxs count i').length)
    (hne : (i, k) ≠ (i', k')) :
    (iterArtifacts output txs rxs count i)[k].2
      ≠ (iterArtifacts output txs rxs count i')[k'].2 := by
  intro heq
  have hks : k < (sweepList txs rxs).length := by
    simpa [iterArtifacts] using hk
  have hks' : k' < (sweepList txs rxs).length := by
    simpa [iterArtifacts] using hk'
  have hget : (iterArtifacts output txs rxs count i)[k]
      = ((sweepList txs rxs)[k],
        outputName output txs rxs count i
          ((sweepList txs rxs)[k]).1 ((sweepList txs rxs)[k]).2) := by
    simp [iterArtifacts]
  have hget' : (iterArtifacts output txs rxs count i')[k']
      = ((sweepList txs rxs)[k'],
        outputName output txs rxs count i'
          ((sweepList txs rxs)[k']).1 ((sweepList txs rxs)[k']).2) := by
    simp [iterArtifacts]
  rw [hget, hget'] at heq
  simp only at heq
  have hchars : outputNameChars (splitextRootChars output.data) txs rxs
        count i ((sweepList txs rxs)[k]).1 ((sweepList txs rxs)[k]).2
      = outputNameChars (splitextRootChars output.data) txs rxs
        count i' ((sweepList txs rxs)[k']).1
        ((sweepList txs rxs)[k']).2 :=
    congrArg String.data heq
  have hmemk := mem_sweepList.mp (List.getElem_mem hks)
  have hmemk' := mem_sweepList.mp (List.getElem_mem hks')
  obtain ⟨hval, hidx⟩ := outputNameChars_inj _ txs rxs count i i' _ _ _ _
    (htx _ hmemk.1) (hrx _ hmemk.2) (htx _ hmemk'.1) (hrx _ hmemk'.2)
    hchars
  have hkk : k = k' := by
    by_cases hc : rxs.length ≠ 1 ∨ txs.length ≠ 1
    · obtain ⟨h1, h2⟩ := hval hc
      have hpair : (sweepList txs rxs)[k] = (sweepList txs rxs)[k'] :=
        Prod.ext h1 h2
      exact ((sweepList_nodup ntx nrx).getElem_inj_iff).mp hpair
    · push_neg at hc
      have : (sweepList txs rxs).length = 1 := by
        rw [sweepList_length, hc.1, hc.2]
      omega
  have hii : i = i' := by
    by_cases hcount : 1 < count
    · exact hidx hcount
    · omega
  exact hne (by rw [hkk, hii])

/-- C4 (counterexample to the claim as stated): duplicate ratio values
are permitted and each produces its own output, but the two outputs of
the duplicated pair carry the *same* identifier — the name does not
record the sweep position, only the values. -/
theorem duplicate_ratio_names_collide :
    ((iterArtifacts "o.csc" [1 / 2, 1 / 2] [1] 1 0).map Prod.snd
      = ["o-tx0.50-rx1.00.csc", "o-tx0.50-rx1.00.csc"]) ∧
    ¬ ((iterArtifacts "o.csc" [1 / 2, 1 / 2] [1] 1 0).map
        Prod.snd).Nodup := by
  with_unfolding_all decide

theorem artifact_names_inj_witness :
    (∀ q ∈ ([0, 1 / 2] : List ℚ), isRatio2 q) ∧
    (∀ q ∈ ([1] : List ℚ), isRatio2 q) ∧
    ([(0 : ℚ), 1 / 2]).Nodup ∧ ([(1 : ℚ)]).Nodup ∧
    (0 < 1 ∧ 0 < (iterArtifacts "o.csc" [0, 1 / 2] [1] 1 0).length ∧
      1 < (iterArtifacts "o.csc" [0, 1 / 2] [1] 1 0).length ∧
      ((0, 0) : ℕ × ℕ) ≠ (0, 1)) ∧
    (iterArtifacts "o.csc" [0, 1 / 2] [1] 1 0)[0].2
      ≠ (iterArtifacts "o.csc" [0, 1 / 2] [1] 1 0)[1].2 :=
  have h1 : ∀ q ∈ ([0, 1 / 2] : List ℚ), isRatio2 q := by
    with_unfolding_all decide
  have h2 : ∀ q ∈ ([1] : List ℚ), isRatio2 q := by
    with_unfolding_all decide
  have hb0 : 0 < (iterArtifacts "o.csc" [0, 1 / 2] [1] 1 0).length := by
    with_unfolding_all decide
  have hb1 : 1 < (iterArtifacts "o.csc" [0, 1 / 2] [1] 1 0).length := by
    with_unfolding_all decide
  ⟨h1, h2, by with_unfolding_all decide, by with_unfolding_all decide,
    ⟨by decide, hb0, hb1, by decide⟩,
    artifact_names_inj "o.csc" [0, 1 / 2] [1] 1 h1 h2
      (by with_unfolding_all decide) (by with_unfolding_all decide)
      0 0 0 1 (by decide) (by decide) hb0 hb1 (by decide)⟩

end GenTopology
